import Mathlib

/-!
Verification development for the image-tiler program (src/main.cpp).

The C++ program converts images into DeepZoom tile trees (via the external
libvips collaborator), then packs each per-image tile tree into a single
binary blob with a JSON offset index, running jobs on a bounded worker pool.

This file shallowly embeds the program core:
its filesystem walk (merge_tiles_to_binary), its offset bookkeeping,
write_metadata, read_tasks, next_power_of_2, process_image control flow and
the bounded-concurrency submission loop of main.  External effects (libvips,
zlib, the real filesystem) are modelled as explicit inputs: a directory tree
value, a read function, and an abstract deterministic compression function
(zlib with fixed parameters is deterministic for identical input, and its
gzip framing always produces non-empty output).
-/

/-- Byte-wise comparison of character lists, mirroring the comparison used by
std::string (and hence by std::filesystem::path on each path component).
Characters are compared by code point, which agrees with C++ byte order on
ASCII names (digits, letters, dots — the only names the tiler produces). -/
def strLtB : List Char → List Char → Bool
  | [], [] => false
  | [], _ :: _ => true
  | _ :: _, [] => false
  | a :: as, b :: bs =>
    if a.toNat < b.toNat then true
    else if b.toNat < a.toNat then false
    else strLtB as bs

/-- Strict lexicographic order on strings (model of std::string operator<). -/
def strLt (a b : String) : Bool := strLtB a.data b.data

lemma char_eq_of_toNat_eq {a b : Char} (h : a.toNat = b.toNat) : a = b := by
  have hv : a.val = b.val := UInt32.toNat.inj h
  exact Char.eq_of_val_eq hv

lemma strLtB_asymm : ∀ a b, strLtB a b = true → strLtB b a = false := by
  intro a
  induction a with
  | nil =>
    intro b h
    cases b with
    | nil => simp [strLtB] at h
    | cons y ys => rfl
  | cons x xs ih =>
    intro b h
    cases b with
    | nil => simp [strLtB] at h
    | cons y ys =>
      simp only [strLtB] at h ⊢
      rcases Nat.lt_trichotomy x.toNat y.toNat with hc | hc | hc
      · simp [hc, Nat.lt_asymm hc]
      · simp [hc] at h ⊢
        exact ih ys h
      · simp [hc, Nat.lt_asymm hc] at h

lemma strLtB_conn : ∀ a b, strLtB a b = false → strLtB b a = false → a = b := by
  intro a
  induction a with
  | nil =>
    intro b h1 h2
    cases b with
    | nil => rfl
    | cons y ys => simp [strLtB] at h1
  | cons x xs ih =>
    intro b h1 h2
    cases b with
    | nil => simp [strLtB] at h2
    | cons y ys =>
      simp only [strLtB] at h1 h2
      rcases Nat.lt_trichotomy x.toNat y.toNat with hc | hc | hc
      · simp [hc] at h1
      · have hx : x = y := char_eq_of_toNat_eq hc
        subst hx
        simp at h1 h2
        exact congrArg (List.cons x) (ih ys h1 h2)
      · simp [hc] at h2

lemma strLtB_trans : ∀ a b c, strLtB a b = true → strLtB b c = true → strLtB a c = true := by
  intro a
  induction a with
  | nil =>
    intro b c h1 h2
    cases b with
    | nil => simp [strLtB] at h1
    | cons y ys =>
      cases c with
      | nil => simp [strLtB] at h2
      | cons z zs => rfl
  | cons x xs ih =>
    intro b c h1 h2
    cases b with
    | nil => simp [strLtB] at h1
    | cons y ys =>
      cases c with
      | nil => simp [strLtB] at h2
      | cons z zs =>
        simp only [strLtB] at h1 h2 ⊢
        rcases Nat.lt_trichotomy x.toNat y.toNat with hxy | hxy | hxy
        · rcases Nat.lt_trichotomy y.toNat z.toNat with hyz | hyz | hyz
          · simp [show x.toNat < z.toNat by omega]
          · simp [show x.toNat < z.toNat by omega]
          · simp [Nat.lt_asymm hyz, hyz] at h2
        · rcases Nat.lt_trichotomy y.toNat z.toNat with hyz | hyz | hyz
          · simp [show x.toNat < z.toNat by omega]
          · simp [hxy] at h1
            simp [hyz] at h2
            have hxz : x.toNat = z.toNat := by omega
            simp [hxz]
            exact ih ys zs h1 h2
          · simp [Nat.lt_asymm hyz, hyz] at h2
        · simp [Nat.lt_asymm hxy, hxy] at h1

lemma strLt_asymm (a b : String) (h : strLt a b = true) : strLt b a = false :=
  strLtB_asymm a.data b.data h

lemma strLt_conn (a b : String) (h1 : strLt a b = false) (h2 : strLt b a = false) : a = b := by
  cases a with
  | mk la =>
    cases b with
    | mk lb => exact congrArg String.mk (strLtB_conn la lb h1 h2)

lemma strLt_trans (a b c : String) (h1 : strLt a b = true) (h2 : strLt b c = true) :
    strLt a c = true :=
  strLtB_trans a.data b.data c.data h1 h2

/-- Model of std::filesystem::path comparison on the relative tile paths: the
path is its list of components, compared component-wise lexicographically,
each component by string order.  This is the order std::sort uses in
merge_tiles_to_binary (non-strict version, for sorting). -/
def pathLe : List String → List String → Bool
  | [], _ => true
  | _ :: _, [] => false
  | a :: as, b :: bs =>
    if strLt a b then true
    else if strLt b a then false
    else pathLe as bs

/-- Propositional form of pathLe. -/
def pathLeP (a b : List String) : Prop := pathLe a b = true

instance : DecidableRel pathLeP := fun a b => inferInstanceAs (Decidable (pathLe a b = true))

lemma pathLe_total : ∀ a b, pathLeP a b ∨ pathLeP b a := by
  intro a
  induction a with
  | nil => intro b; left; rfl
  | cons x xs ih =>
    intro b
    cases b with
    | nil => right; rfl
    | cons y ys =>
      unfold pathLeP pathLe
      cases hxy : strLt x y
      · cases hyx : strLt y x
        · have hx : x = y := strLt_conn x y hxy hyx
          subst hx
          simp [hxy]
          exact ih ys
        · right; simp [hyx]
      · left; simp [hxy]

lemma pathLe_trans : ∀ a b c, pathLeP a b → pathLeP b c → pathLeP a c := by
  intro a
  induction a with
  | nil => intro b c h1 h2; rfl
  | cons x xs ih =>
    intro b c h1 h2
    cases b with
    | nil => exact absurd h1 (by simp [pathLeP, pathLe])
    | cons y ys =>
      cases c with
      | nil => exact absurd h2 (by simp [pathLeP, pathLe])
      | cons z zs =>
        unfold pathLeP pathLe at h1 h2 ⊢
        cases hxy : strLt x y
        · cases hyx : strLt y x
          · have hx : x = y := strLt_conn x y hxy hyx
            subst hx
            simp [hxy] at h1
            cases hxz : strLt x z
            · cases hzx : strLt z x
              · have hx2 : x = z := strLt_conn x z hxz hzx
                subst hx2
                simp [hxz] at h2 ⊢
                exact ih ys zs h1 h2
              · simp [hxz, hzx] at h2
            · simp [hxz]
          · simp [hxy, hyx] at h1
        · cases hyz : strLt y z
          · cases hzy : strLt z y
            · have hy : y = z := strLt_conn y z hyz hzy
              subst hy
              simp [hxy]
            · simp [hyz, hzy] at h2
          · simp [strLt_trans x y z hxy hyz]

lemma pathLe_antisymm : ∀ a b, pathLeP a b → pathLeP b a → a = b := by
  intro a
  induction a with
  | nil =>
    intro b h1 h2
    cases b with
    | nil => rfl
    | cons y ys => exact absurd h2 (by simp [pathLeP, pathLe])
  | cons x xs ih =>
    intro b h1 h2
    cases b with
    | nil => exact absurd h1 (by simp [pathLeP, pathLe])
    | cons y ys =>
      unfold pathLeP pathLe at h1 h2
      cases hxy : strLt x y
      · cases hyx : strLt y x
        · have hx : x = y := strLt_conn x y hxy hyx
          subst hx
          simp [hxy] at h1 h2
          exact congrArg (List.cons x) (ih ys h1 h2)
        · simp [hxy, hyx] at h1
      · simp [hxy, strLt_asymm x y hxy] at h2

instance : IsTotal (List String) pathLeP := ⟨pathLe_total⟩

instance : IsTrans (List String) pathLeP := ⟨pathLe_trans⟩

instance : IsAntisymm (List String) pathLeP := ⟨pathLe_antisymm⟩

/-- The deterministic ordering of discovered tile paths: the model of
std::sort over std::filesystem::path values (line 256 of main.cpp).  Any
correct sort produces the same result here because pathLeP is a total,
transitive, antisymmetric order, so the sorted permutation is unique. -/
def sortPaths (l : List (List String)) : List (List String) :=
  List.insertionSort pathLeP l

lemma sortPaths_eq_of_perm (l1 l2 : List (List String)) (h : l1.Perm l2) :
    sortPaths l1 = sortPaths l2 := by
  apply List.eq_of_perm_of_sorted
    (((List.perm_insertionSort pathLeP l1).trans h).trans
      (List.perm_insertionSort pathLeP l2).symm)
    (List.sorted_insertionSort pathLeP l1)
    (List.sorted_insertionSort pathLeP l2)

/-- One entry of the offset index (struct TileInfo, lines 43-48 of main.cpp). -/
structure TileInfo where
  key : String
  binary_name : String
  start_offset : Nat
  size : Nat
deriving DecidableEq

/-- ASCII tolower, as applied characterwise by std::transform at line 247. -/
def lowerChar (c : Char) : Char :=
  if 65 ≤ c.toNat ∧ c.toNat ≤ 90 then Char.ofNat (c.toNat + 32) else c

def lowerStr (s : String) : String := String.mk (s.data.map lowerChar)

/-- all_of(name, ::isdigit): true iff every character is an ASCII digit
(vacuously true for the empty string, as in the C++). -/
def isNumericName (s : String) : Bool := s.data.all Char.isDigit

/-- Model of std::filesystem::path stem/extension decomposition of a filename:
the extension starts at the rightmost dot, except that "." and ".." and
filenames whose only dot is the leading character have no extension. -/
def splitStemExt (f : String) : String × String :=
  if f = "." ∨ f = ".." then (f, "")
  else
    let cs := f.data
    let post := (cs.reverse.takeWhile fun c => c ≠ '.').reverse
    if cs.length = post.length then (f, "")
    else if cs.length = post.length + 1 then (f, "")
    else (String.mk (cs.take (cs.length - post.length - 1)), String.mk ('.' :: post))

/-- The leaf filter of merge_tiles_to_binary (lines 246-248): lowercased
extension must be .png, .jpg or .jpeg. -/
def extOk (fname : String) : Bool :=
  let e := lowerStr (splitStemExt fname).2
  e == ".png" || e == ".jpg" || e == ".jpeg"

/-- A directory entry of the modelled filesystem: the tile-folder contents as
seen by fs::directory_iterator.  List order models the (unspecified)
iteration order of the real directory iterator. -/
inductive FsEntry where
  | file (name : String) (data : List Nat)
  | dir (name : String) (entries : List FsEntry)

def entryName : FsEntry → String
  | .file n _ => n
  | .dir n _ => n

def isDirE : FsEntry → Bool
  | .file _ _ => false
  | .dir _ _ => true

/-- Innermost loop of the discovery walk (lines 243-251): collect regular
files passing the extension filter from one row directory. -/
def collectLeaf (lname yname : String) (yents : List FsEntry) : List (List String) :=
  yents.flatMap fun te =>
    match te with
    | .dir _ _ => []
    | .file fname _ => if extOk fname then [[lname, yname, fname]] else []

/-- Middle loop (lines 239-252): descend into every directory of a level
directory — the row names are NOT filtered for numericness. -/
def collectRows (lname : String) (lents : List FsEntry) : List (List String) :=
  lents.flatMap fun ye =>
    match ye with
    | .file _ _ => []
    | .dir yname yents => collectLeaf lname yname yents

/-- The three-level discovery walk of merge_tiles_to_binary (lines 231-253):
level entries must be directories with purely numeric names; row entries must
be directories (their names are NOT filtered); leaves must be regular files
passing the extension filter.  Produces relative paths [level, row, filename]
in iteration order. -/
def collectTiles (root : List FsEntry) : List (List String) :=
  root.flatMap fun le =>
    match le with
    | .file _ _ => []
    | .dir lname lents =>
      if isNumericName lname then collectRows lname lents else []

/-- coordinateKey construction (lines 272-278): level + "_" + row + "_" + stem. -/
def mkKey : List String → String
  | [lvl, y, f] => lvl ++ "_" ++ y ++ "_" ++ (splitStemExt f).1
  | _ => ""

/-- The ambient inputs of one merge_tiles_to_binary call: the compression
function (zlib deflate at fixed default parameters — a pure deterministic
function of the input bytes), the result of opening-and-reading a tile file
by path at pack time (none = the open fails; the C++ performs no error check
and then reads an empty byte sequence), the tile folder contents, and
whether creating the output blob file succeeds. -/
structure MergeWorld where
  compress : List Nat → List Nat
  readFile : List String → Option (List Nat)
  root : List FsEntry
  canCreateBlob : Bool

/-- Length of the compressed bytes a given tile path contributes. -/
def clen (w : MergeWorld) (p : List String) : Nat :=
  (w.compress ((w.readFile p).getD [])).length

structure MergeState where
  tiles : List TileInfo
  blob : List Nat
  off : Nat

/-- One iteration of the per-tile loop (lines 259-283): read (an unopenable
file yields empty data, mirroring istreambuf_iterator on a failed stream),
compress, append to the blob, record the entry, advance the offset. -/
def mergeStep (w : MergeWorld) (bname : String) (s : MergeState) (p : List String) : MergeState :=
  let data := (w.readFile p).getD []
  let c := w.compress data
  ⟨s.tiles ++ [⟨mkKey p, bname, s.off, c.length⟩], s.blob ++ c, s.off + c.length⟩

/-- Creating/truncating a file at the top level of the tile folder
(std::ofstream constructor). -/
def setFile (root : List FsEntry) (name : String) (data : List Nat) : List FsEntry :=
  (root.filter fun e => !(entryName e == name)) ++ [.file name data]

/-- The cleanup pass (lines 288-303): remove every numeric-named directory,
then remove blank.png if present. -/
def cleanupRoot (root : List FsEntry) : List FsEntry :=
  (root.filter fun e => !(isDirE e && isNumericName (entryName e))).filter
    fun e => !(entryName e == "blank.png")

/-- Discovery, sorting and the per-tile packing loop: everything of
merge_tiles_to_binary between creating the blob file and the cleanup pass.
The blob file is created (empty) before discovery runs, as in the source. -/
def packCore (w : MergeWorld) (bname : String) : MergeState :=
  (sortPaths (collectTiles (setFile w.root bname []))).foldl (mergeStep w bname) ⟨[], [], 0⟩

/-- merge_tiles_to_binary (lines 216-306).  Failure to create the blob file
throws; otherwise returns the offset index, the blob bytes written, and the
resulting tile-folder contents after the optional cleanup. -/
def merge_tiles_to_binary (w : MergeWorld) (bname : String) (keep : Bool) :
    Except String (List TileInfo × List Nat × List FsEntry) :=
  if w.canCreateBlob = false then .error ("Cannot create binary file: " ++ bname)
  else
    let st := packCore w bname
    let root2 := setFile (setFile w.root bname []) bname st.blob
    .ok (st.tiles, st.blob, if keep then root2 else cleanupRoot root2)

structure MetaTileEntry where
  binaryName : String
  startOffset : Nat
  size : Nat
deriving DecidableEq

/-- The structured content of metadata.json as emitted by write_metadata:
width, height, tile_size, and the "tiles" mapping written as one key-value
pair per TileInfo in order (duplicate keys are written as-is).  The JSON
text serialization is abstracted to this structure. -/
structure MetaDoc where
  width : Int
  height : Int
  tile_size : Int
  tiles : List (String × MetaTileEntry)
deriving DecidableEq

/-- write_metadata (lines 308-341): fails if the file cannot be created,
otherwise writes metadata.json into the output folder. -/
def write_metadata (canCreate : Bool) (root : List FsEntry) (width height tile_size : Int)
    (tiles_map : List TileInfo) : Except String (List FsEntry × MetaDoc) :=
  if canCreate = false then .error ("Cannot create metadata file: metadata.json")
  else
    .ok (setFile root ("metadata.json") [],
      ⟨width, height, tile_size,
        tiles_map.map fun t => (t.key, ⟨t.binary_name, t.start_offset, t.size⟩)⟩)

/-- struct ImageTask (lines 29-33). -/
structure ImageTask where
  input_path : String
  output_path : String
  index : Nat
deriving DecidableEq

def read_tasksGo : List String → List String → Nat → List ImageTask
  | ip :: ips, op :: ops, idx =>
    if !(ip == "") && !(op == "") then ⟨ip, op, idx⟩ :: read_tasksGo ips ops (idx + 1)
    else read_tasksGo ips ops idx
  | _, _, _ => []

/-- read_tasks (lines 151-174): the two files as line lists; the while loop
stops when either stream is exhausted, skips pairs with a blank line on
either side, and numbers the kept tasks consecutively from 0. -/
def read_tasks (inputs outputs : List String) : List ImageTask :=
  read_tasksGo inputs outputs 0

def np2go (fuel target power : Nat) : Nat :=
  match fuel with
  | 0 => power
  | f + 1 => if power < target then np2go f target (power * 2) else power

/-- next_power_of_2 (lines 176-184).  The C++ loop (power = 1; while (power < n)
power *= 2) is run with fuel n.toNat, which always suffices since power grows
by at least 1 per iteration.  Dimensions are modelled as unbounded integers. -/
def next_power_of_2 (n : Int) : Int :=
  if n ≤ 0 then 1 else (np2go n.toNat n.toNat 1 : Nat)

/-- struct ProcessResult (lines 35-41). -/
structure ProcessResult where
  index : Nat
  success : Bool
  error_message : String
  width : Int
  height : Int
deriving DecidableEq

/-- The ambient effects of one process_image call: loading the input image
(reporting its dimensions), the resize + dzsave call of the external tiler,
the merge inputs, and metadata-file creation. -/
structure JobWorld where
  load : Except String (Int × Int)
  save : Except String Unit
  mergeW : MergeWorld
  keep : Bool
  canWriteMeta : Bool
  tile_size : Int

/-- process_image (lines 343-420), with the try/catch modelled by matching on
each fallible step.  Note the source sets result.success = true right after
dzsave succeeds, BEFORE merging and metadata writing, and the catch block
does not reset it. -/
def process_image (w : JobWorld) (task : ImageTask) : ProcessResult :=
  match w.load with
  | .error e => ⟨task.index, false, e, 0, 0⟩
  | .ok (wd, ht) =>
    let target := next_power_of_2 (max wd ht)
    match w.save with
    | .error e => ⟨task.index, false, e, 0, 0⟩
    | .ok _ =>
      match merge_tiles_to_binary w.mergeW ("tiles_000.binz") w.keep with
      | .error e => ⟨task.index, true, e, target, target⟩
      | .ok res =>
        match write_metadata w.canWriteMeta res.2.2 target target w.tile_size res.1 with
        | .error e => ⟨task.index, true, e, target, target⟩
        | .ok _ => ⟨task.index, true, "", target, target⟩

/-- State of the submission loop of main (lines 451-465): jobs not yet
submitted, and the futures vector, each with a flag telling whether its job
has already finished. -/
structure SchedState where
  pending : List Nat
  fut : List (Nat × Bool)
deriving DecidableEq

/-- Small-step transitions of the submission loop.  submit models
futures.push_back(async(...)), which the loop only reaches when the vector
holds fewer than cap futures (after every push the loop waits on and erases
the front future whenever the size has reached cap, so the size is below cap
at each new push).  finish models the asynchronous completion of any running
job.  reap models futures.front().wait() + erase: the front future can only
be erased once its job has finished.  The relation over-approximates the real
loop (it allows reaping early), so safety properties proved for all its
traces hold for the real traces. -/
inductive SchedStep (cap : Nat) : SchedState → SchedState → Prop where
  | submit (j : Nat) (p : List Nat) (fut : List (Nat × Bool)) (h : fut.length < cap) :
      SchedStep cap ⟨j :: p, fut⟩ ⟨p, fut ++ [(j, false)]⟩
  | finish (p : List Nat) (pre : List (Nat × Bool)) (j : Nat) (post : List (Nat × Bool)) :
      SchedStep cap ⟨p, pre ++ (j, false) :: post⟩ ⟨p, pre ++ (j, true) :: post⟩
  | reap (p : List Nat) (j : Nat) (rest : List (Nat × Bool)) :
      SchedStep cap ⟨p, (j, true) :: rest⟩ ⟨p, rest⟩

inductive SchedReach (cap : Nat) (start : SchedState) : SchedState → Prop where
  | refl : SchedReach cap start start
  | step (s t : SchedState) (hr : SchedReach cap start s) (hs : SchedStep cap s t) :
      SchedReach cap start t

/-- Number of submitted-but-unfinished jobs. -/
def inflight (s : SchedState) : Nat := (s.fut.filter fun x => !x.2).length

/-- Reference list of the entries the packing loop appends, starting at a
given offset, used to state and prove the offset bookkeeping. -/
def packList (w : MergeWorld) (bname : String) (off : Nat) :
    List (List String) → List TileInfo
  | [] => []
  | p :: ps => ⟨mkKey p, bname, off, clen w p⟩ :: packList w bname (off + clen w p) ps

/-- The offsets of a list of entries chain contiguously from a given start. -/
def chainFrom (off : Nat) : List TileInfo → Prop
  | [] => True
  | t :: ts => t.start_offset = off ∧ chainFrom (off + t.size) ts

def leafOk : FsEntry → Bool
  | .file fname _ => extOk fname
  | .dir _ _ => false

/-- Number of qualifying tile files inside one entry of a level directory. -/
def specRowCount : FsEntry → Nat
  | .file _ _ => 0
  | .dir _ yents => (yents.filter leafOk).length

/-- Spec-side count of qualifying tile files in a tile folder: files with a
matching extension, lying in a directory inside a numeric-named directory.
Written from the spec wording for comparison against the entry count the
code produces. -/
def specTileCount (root : List FsEntry) : Nat :=
  (root.map fun le =>
    match le with
    | .file _ _ => 0
    | .dir lname lents =>
      if isNumericName lname then (lents.map specRowCount).sum else 0).sum

/-- Full path string of a relative path, for comparing the code's sort order
with the spec's "lexicographic by full path string". -/
def joinPath : List String → String
  | [] => ""
  | [x] => x
  | x :: xs => x ++ "/" ++ joinPath xs

lemma lenFlatMap {α β : Type} (l : List α) (f : α → List β) :
    (l.flatMap f).length = (l.map fun a => (f a).length).sum := by
  induction l <;> simp [*]

lemma foldl_mergeStep (w : MergeWorld) (bname : String) :
    ∀ (files : List (List String)) (s : MergeState),
      files.foldl (mergeStep w bname) s =
        ⟨s.tiles ++ packList w bname s.off files,
         s.blob ++ files.flatMap (fun p => w.compress ((w.readFile p).getD [])),
         s.off + (files.map (clen w)).sum⟩ := by
  intro files
  induction files with
  | nil => intro s; cases s; simp [packList]
  | cons p ps ih =>
    intro s
    simp only [List.foldl_cons]
    rw [ih]
    simp [mergeStep, packList, clen, List.append_assoc, Nat.add_assoc]

lemma packCore_eq (w : MergeWorld) (bname : String) :
    packCore w bname =
      ⟨packList w bname 0 (sortPaths (collectTiles (setFile w.root bname []))),
       (sortPaths (collectTiles (setFile w.root bname []))).flatMap
         (fun p => w.compress ((w.readFile p).getD [])),
       ((sortPaths (collectTiles (setFile w.root bname []))).map (clen w)).sum⟩ := by
  unfold packCore
  rw [foldl_mergeStep]
  simp

lemma merge_ok_parts (w : MergeWorld) (bname : String) (keep : Bool)
    (tiles : List TileInfo) (blob : List Nat) (rootF : List FsEntry)
    (hok : merge_tiles_to_binary w bname keep = Except.ok (tiles, blob, rootF)) :
    tiles = (packCore w bname).tiles ∧ blob = (packCore w bname).blob ∧
      w.canCreateBlob = true := by
  unfold merge_tiles_to_binary at hok
  cases hc : w.canCreateBlob
  · rw [hc] at hok; simp at hok
  · rw [hc] at hok
    simp at hok
    exact ⟨hok.1.symm, hok.2.1.symm, rfl⟩

lemma packList_chain (w : MergeWorld) (bname : String) :
    ∀ (files : List (List String)) (off : Nat), chainFrom off (packList w bname off files) := by
  intro files
  induction files with
  | nil => intro off; trivial
  | cons p ps ih =>
    intro off
    simp only [packList, chainFrom]
    exact ⟨by simp, ih (off + clen w p)⟩

lemma packList_length (w : MergeWorld) (bname : String) :
    ∀ (files : List (List String)) (off : Nat),
      (packList w bname off files).length = files.length := by
  intro files
  induction files with
  | nil => intro off; rfl
  | cons p ps ih => intro off; simp [packList, ih]

lemma packList_map_size (w : MergeWorld) (bname : String) :
    ∀ (files : List (List String)) (off : Nat),
      (packList w bname off files).map TileInfo.size = files.map (clen w) := by
  intro files
  induction files with
  | nil => intro off; rfl
  | cons p ps ih => intro off; simp [packList, ih]

lemma packList_size_pos (w : MergeWorld) (bname : String)
    (hpos : ∀ d, 0 < (w.compress d).length) :
    ∀ (files : List (List String)) (off : Nat) (t : TileInfo),
      t ∈ packList w bname off files → 0 < t.size := by
  intro files
  induction files with
  | nil => intro off t ht; simp [packList] at ht
  | cons p ps ih =>
    intro off t ht
    simp only [packList, List.mem_cons] at ht
    rcases ht with ht | ht
    · subst ht; exact hpos _
    · exact ih (off + clen w p) t ht

lemma chainFrom_get :
    ∀ (l : List TileInfo) (off : Nat), chainFrom off l →
      ∀ (i : Nat) (h : i < l.length),
        (l.get ⟨i, h⟩).start_offset = off + ((l.take i).map TileInfo.size).sum := by
  intro l
  induction l with
  | nil => intro off hch i hi; exact absurd hi (by simp)
  | cons t ts ih =>
    intro off hch i hi
    rcases hch with ⟨h0, hrest⟩
    cases i with
    | zero => simpa using h0
    | succ j =>
      have hj : j < ts.length := by simpa using hi
      have hs := ih (off + t.size) hrest j hj
      simp only [List.get_cons_succ, List.take_succ_cons, List.map_cons, List.sum_cons]
      rw [hs]
      omega

lemma sum_take_mono (l : List Nat) : ∀ i j, i ≤ j → (l.take i).sum ≤ (l.take j).sum := by
  induction l with
  | nil => intro i j h; simp
  | cons x xs ih =>
    intro i j h
    cases i with
    | zero => simp
    | succ i2 =>
      cases j with
      | zero => omega
      | succ j2 =>
        simp only [List.take_succ_cons, List.sum_cons]
        exact Nat.add_le_add_left (ih i2 j2 (by omega)) x

/-- C1: in every successful run of merge_tiles_to_binary, the first entry's
startOffset is 0, each entry's startOffset is the previous entry's
startOffset plus its byteLength, offsets are strictly increasing (gzip always
emits at least its framing bytes, so every compressed tile is non-empty),
and the byteLengths sum to the total number of bytes written to the blob. -/
theorem merge_offsets_invariant (w : MergeWorld) (bname : String) (keep : Bool)
    (tiles : List TileInfo) (blob : List Nat) (rootF : List FsEntry)
    (hok : merge_tiles_to_binary w bname keep = Except.ok (tiles, blob, rootF))
    (hpos : ∀ d, 0 < (w.compress d).length) :
    (∀ h : 0 < tiles.length, (tiles.get ⟨0, h⟩).start_offset = 0) ∧
    (∀ i : Nat, ∀ h : i + 1 < tiles.length,
      (tiles.get ⟨i + 1, h⟩).start_offset
        = (tiles.get ⟨i, by omega⟩).start_offset + (tiles.get ⟨i, by omega⟩).size) ∧
    (∀ i j : Nat, ∀ hij : i < j, ∀ hj : j < tiles.length,
      (tiles.get ⟨i, by omega⟩).start_offset < (tiles.get ⟨j, hj⟩).start_offset) ∧
    (tiles.map TileInfo.size).sum = blob.length := by
  obtain ⟨htiles, hblob, _⟩ := merge_ok_parts w bname keep tiles blob rootF hok
  rw [packCore_eq] at htiles hblob
  simp only at htiles hblob
  have hchain : chainFrom 0 tiles := by
    rw [htiles]; exact packList_chain w bname _ 0
  have hget : ∀ (i : Nat) (h : i < tiles.length),
      (tiles.get ⟨i, h⟩).start_offset = ((tiles.take i).map TileInfo.size).sum := by
    intro i h
    have := chainFrom_get tiles 0 hchain i h
    omega
  have hstep : ∀ (i : Nat) (h : i < tiles.length),
      ((tiles.take (i + 1)).map TileInfo.size).sum
        = ((tiles.take i).map TileInfo.size).sum + (tiles.get ⟨i, h⟩).size := by
    intro i h
    rw [List.map_take, List.map_take,
      List.sum_take_succ (tiles.map TileInfo.size) i (by simpa using h)]
    congr 1
    exact List.get_map TileInfo.size
  have hpos2 : ∀ (i : Nat) (h : i < tiles.length), 0 < (tiles.get ⟨i, h⟩).size := by
    intro i h
    apply packList_size_pos w bname hpos _ 0
    rw [← htiles]
    exact List.get_mem tiles i h
  refine ⟨?_, ?_, ?_, ?_⟩
  · intro h
    rw [hget 0 h]
    simp
  · intro i h
    rw [hget (i + 1) h, hget i (by omega), hstep i (by omega)]
  · intro i j hij hj
    rw [hget i (by omega), hget j hj]
    calc ((tiles.take i).map TileInfo.size).sum
        < ((tiles.take (i + 1)).map TileInfo.size).sum := by
          rw [hstep i (by omega)]
          have := hpos2 i (by omega)
          omega
      _ ≤ ((tiles.take j).map TileInfo.size).sum := by
          rw [List.map_take, List.map_take]
          exact sum_take_mono (tiles.map TileInfo.size) (i + 1) j (by omega)
  · rw [htiles, hblob, packList_map_size, lenFlatMap]
    rfl

/-- Concrete merge world for exercising merge_offsets_invariant: a level
directory 0 with one row directory 0 holding two tiles. -/
def wC1 : MergeWorld :=
  ⟨fun d => 7 :: d, fun _ => some [1, 2],
   [.dir ("0") [.dir ("0") [.file ("0.png") [1, 2], .file ("1.png") [3]]]], true⟩

def c1tiles : List TileInfo :=
  [⟨"0_0_0", "tiles_000.binz", 0, 3⟩, ⟨"0_0_1", "tiles_000.binz", 3, 3⟩]

def c1blob : List Nat := [7, 1, 2, 7, 1, 2]

def c1rootF : List FsEntry := [.file ("tiles_000.binz") [7, 1, 2, 7, 1, 2]]

/-- Witness for merge_offsets_invariant at a concrete two-tile world. -/
theorem merge_offsets_invariant_witness :
    (∀ h : 0 < c1tiles.length, (c1tiles.get ⟨0, h⟩).start_offset = 0) ∧
    (∀ i : Nat, ∀ h : i + 1 < c1tiles.length,
      (c1tiles.get ⟨i + 1, h⟩).start_offset
        = (c1tiles.get ⟨i, by omega⟩).start_offset + (c1tiles.get ⟨i, by omega⟩).size) ∧
    (∀ i j : Nat, ∀ hij : i < j, ∀ hj : j < c1tiles.length,
      (c1tiles.get ⟨i, by omega⟩).start_offset < (c1tiles.get ⟨j, hj⟩).start_offset) ∧
    (c1tiles.map TileInfo.size).sum = c1blob.length :=
  merge_offsets_invariant wC1 ("tiles_000.binz") false c1tiles c1blob c1rootF rfl
    (fun d => by simp [wC1])

lemma read_tasksGo_pairs :
    ∀ (ips ops : List String) (idx : Nat),
      (read_tasksGo ips ops idx).map (fun t => (t.input_path, t.output_path))
        = (ips.zip ops).filter fun pr => !(pr.1 == "") && !(pr.2 == "") := by
  intro ips
  induction ips with
  | nil => intro ops idx; rfl
  | cons ip ips2 ih =>
    intro ops idx
    cases ops with
    | nil => rfl
    | cons op ops2 =>
      cases hc : (!(ip == "") && !(op == ""))
      · simp [read_tasksGo, hc, ih]
      · simp [read_tasksGo, hc, ih]

lemma read_tasksGo_indices :
    ∀ (ips ops : List String) (idx : Nat),
      (read_tasksGo ips ops idx).map ImageTask.index
        = List.range' idx (read_tasksGo ips ops idx).length := by
  intro ips
  induction ips with
  | nil => intro ops idx; rfl
  | cons ip ips2 ih =>
    intro ops idx
    cases ops with
    | nil => rfl
    | cons op ops2 =>
      cases hc : (!(ip == "") && !(op == ""))
      · simp [read_tasksGo, hc, ih]
      · have hun : read_tasksGo (ip :: ips2) (op :: ops2) idx
            = ⟨ip, op, idx⟩ :: read_tasksGo ips2 ops2 (idx + 1) := by
          simp [read_tasksGo, hc]
        rw [hun]
        simp [List.range'_succ _ _ 1, ih ops2 (idx + 1)]

/-- C8: read_tasks pairs the two line files by position, skips pairs with a
blank line on either side (not an error), truncates to the shorter file, and
numbers the kept tasks consecutively from 0; with 5 input lines and 3 output
lines, none blank, exactly 3 jobs are constructed. -/
theorem read_tasks_pairing :
    (∀ inputs outputs : List String,
      (read_tasks inputs outputs).map (fun t => (t.input_path, t.output_path))
        = (inputs.zip outputs).filter fun pr => !(pr.1 == "") && !(pr.2 == "")) ∧
    (∀ inputs outputs : List String,
      (read_tasks inputs outputs).map ImageTask.index
        = List.range (read_tasks inputs outputs).length) ∧
    (read_tasks ["a", "b", "c", "d", "e"] ["x", "y", "z"]).length = 3 := by
  refine ⟨?_, ?_, ?_⟩
  · intro inputs outputs
    exact read_tasksGo_pairs inputs outputs 0
  · intro inputs outputs
    unfold read_tasks
    rw [read_tasksGo_indices inputs outputs 0, List.range_eq_range']
  · decide

lemma np2go_spec :
    ∀ (fuel target power k : Nat), power = 2 ^ k →
      target ≤ fuel + power → (k = 0 ∨ 2 ^ (k - 1) < target) →
      ∃ m : Nat, np2go fuel target power = 2 ^ m ∧ target ≤ 2 ^ m ∧
        (m = 0 ∨ 2 ^ (m - 1) < target) := by
  intro fuel
  induction fuel with
  | zero =>
    intro target power k hk hle hinv
    refine ⟨k, hk, ?_, hinv⟩
    rw [← hk]
    omega
  | succ f ih =>
    intro target power k hk hle hinv
    have hp : 0 < power := by
      rw [hk]
      exact Nat.pos_pow_of_pos k (by omega)
    by_cases h : power < target
    · have hrec := ih target (power * 2) (k + 1)
        (by rw [hk, Nat.pow_succ]) (by omega)
        (by right; simpa [Nat.add_sub_cancel] using (hk ▸ h))
      rw [show np2go (f + 1) target power = np2go f target (power * 2) from by
        simp [np2go, h]]
      exact hrec
    · refine ⟨k, ?_, by omega, hinv⟩
      simp [np2go, h]
      exact hk

/-- C9: for every successfully tiled image, the reported width and height are
equal and both equal next_power_of_2 (max originalWidth originalHeight);
next_power_of_2 returns the least power of 2 that is at least n for every
n ≥ 1, and returns 1 for n ≤ 0. -/
theorem next_power_of_2_spec :
    (∀ n : Int, n ≤ 0 → next_power_of_2 n = 1) ∧
    (∀ n : Int, 1 ≤ n → ∃ k : Nat, next_power_of_2 n = 2 ^ k ∧ n ≤ 2 ^ k ∧
      ∀ j : Nat, n ≤ 2 ^ j → (2 : Int) ^ k ≤ 2 ^ j) ∧
    (∀ (jw : JobWorld) (t : ImageTask) (wd ht : Int),
      jw.load = Except.ok (wd, ht) → jw.save = Except.ok () →
      (process_image jw t).width = (process_image jw t).height ∧
      (process_image jw t).width = next_power_of_2 (max wd ht)) := by
  refine ⟨?_, ?_, ?_⟩
  · intro n hn
    unfold next_power_of_2
    rw [if_pos hn]
  · intro n hn
    unfold next_power_of_2
    rw [if_neg (by omega)]
    obtain ⟨m, hm, hle, hinv⟩ := np2go_spec n.toNat n.toNat 1 0 (by simp) (by omega)
      (Or.inl rfl)
    have hcast : ∀ j : Nat, (((2 : Nat) ^ j : Nat) : Int) = (2 : Int) ^ j := by
      intro j
      push_cast
      ring
    refine ⟨m, ?_, ?_, ?_⟩
    · rw [hm, hcast m]
    · rw [← hcast m]
      exact Int.toNat_le.mp hle
    · intro j hj
      have hjn : n.toNat ≤ 2 ^ j := by
        rw [Int.toNat_le, hcast j]
        exact hj
      have hmj : m ≤ j := by
        rcases hinv with h0 | hlt
        · omega
        · have hlt2 : 2 ^ (m - 1) < 2 ^ j := by omega
          have := (Nat.pow_lt_pow_iff_right (by omega : 1 < 2)).mp hlt2
          omega
      have hpow : (2 : Nat) ^ m ≤ 2 ^ j := Nat.pow_le_pow_right (by omega) hmj
      rw [← hcast m, ← hcast j]
      exact_mod_cast hpow
  · intro jw t wd ht hl hs
    unfold process_image
    rw [hl, hs]
    dsimp only
    cases hmg : merge_tiles_to_binary jw.mergeW ("tiles_000.binz") jw.keep with
    | error e => exact ⟨rfl, rfl⟩
    | ok res =>
      dsimp only
      cases hwm : write_metadata jw.canWriteMeta res.2.2 (next_power_of_2 (max wd ht))
          (next_power_of_2 (max wd ht)) jw.tile_size res.1 with
      | error e => exact ⟨rfl, rfl⟩
      | ok y => exact ⟨rfl, rfl⟩

/-- Concrete job world for the next_power_of_2_spec witness: a 5 x 3 image
whose tiling succeeds. -/
def w9 : JobWorld :=
  ⟨Except.ok (5, 3), Except.ok (), ⟨fun d => d, fun _ => some [], [], true⟩, false, true, 512⟩

/-- Witness for next_power_of_2_spec. -/
theorem next_power_of_2_spec_witness :
    next_power_of_2 (-3) = 1 ∧
    ((process_image w9 ⟨"in.png", "out", 0⟩).width
        = (process_image w9 ⟨"in.png", "out", 0⟩).height ∧
      (process_image w9 ⟨"in.png", "out", 0⟩).width = next_power_of_2 (max 5 3)) :=
  ⟨next_power_of_2_spec.1 (-3) (by decide),
   next_power_of_2_spec.2.2 w9 ⟨"in.png", "out", 0⟩ 5 3 rfl rfl⟩

/-- Concrete job world where loading and tiling succeed but the blob file
cannot be created, so the packing step fails. -/
def w2 : JobWorld :=
  ⟨Except.ok (3, 2), Except.ok (), ⟨fun d => d, fun _ => none, [], false⟩, false, true, 512⟩

/-- C2 (code bug): process_image sets result.success = true right after the
external tiler succeeds, before packing and metadata writing, and the catch
block never resets it; so when the packing step fails, the returned
JobResult reports success = true together with a non-empty error message,
contradicting the claimed success = false. -/
theorem process_image_pack_failure_success_flag :
    (process_image w2 ⟨"a.png", "out", 0⟩).success = true ∧
    (process_image w2 ⟨"a.png", "out", 0⟩).error_message
      = "Cannot create binary file: tiles_000.binz" ∧
    (process_image w2 ⟨"a.png", "out", 0⟩).error_message ≠ "" := by
  refine ⟨rfl, rfl, by decide⟩

/-- Concrete merge world whose only discovered tile, 0/0/0.png, cannot be
opened for reading at pack time. -/
def w3 : MergeWorld :=
  ⟨fun d => 9 :: d, fun _ => none,
   [.dir ("0") [.dir ("0") [.file ("0.png") [1, 2, 3]]]], true⟩

/-- C3 (code bug): merge_tiles_to_binary performs no error check after
opening a tile file; with the discovered tile 0/0/0.png unreadable
(readFile = none) the pack does not fail: it returns Except.ok and packs the
tile as the compression of the empty byte sequence (1 byte here) instead of
its 3 data bytes — no error propagates, the blob is silently wrong. -/
theorem merge_unreadable_tile_silently_packed :
    merge_tiles_to_binary w3 ("tiles_000.binz") true
      = Except.ok ([⟨"0_0_0", "tiles_000.binz", 0, 1⟩], [9],
          [.dir ("0") [.dir ("0") [.file ("0.png") [1, 2, 3]]],
           .file ("tiles_000.binz") [9]]) ∧
    (w3.compress ((w3.readFile ["0", "0", "0.png"]).getD [])).length = 1 ∧
    (w3.compress [1, 2, 3]).length = 4 :=
  ⟨rfl, rfl, rfl⟩

/-- A tile tree with a numeric level directory containing a non-numeric row
directory that itself contains a qualifying tile file. -/
def c4root : List FsEntry := [.dir ("0") [.dir ("abc") [.file ("1.png") []]]]

/-- C4 counterexample: the claim states that entries with non-numeric names
are skipped at the row layer as well; the code only applies the numeric-name
filter at the level layer, so 0/abc/1.png IS collected although its row
directory name abc is not numeric. -/
theorem row_layer_not_filtered_counterexample :
    collectTiles c4root = [["0", "abc", "1.png"]] ∧ isNumericName ("abc") = false :=
  ⟨rfl, rfl⟩

lemma collectLeaf_cons (lname yname : String) (te : FsEntry) (rest : List FsEntry) :
    collectLeaf lname yname (te :: rest)
      = (match te with
         | FsEntry.dir _ _ => []
         | FsEntry.file fname _ => if extOk fname then [[lname, yname, fname]] else [])
        ++ collectLeaf lname yname rest := rfl

lemma collectLeaf_length (lname yname : String) :
    ∀ yents : List FsEntry,
      (collectLeaf lname yname yents).length = (yents.filter leafOk).length := by
  intro yents
  induction yents with
  | nil => rfl
  | cons te rest ih =>
    rw [collectLeaf_cons]
    cases te with
    | dir n es => simpa [leafOk] using ih
    | file fname d =>
      cases hx : extOk fname
      · simp [leafOk, hx, ih]
      · simp [leafOk, hx, ih]

lemma collectRows_cons (lname : String) (ye : FsEntry) (rest : List FsEntry) :
    collectRows lname (ye :: rest)
      = (match ye with
         | FsEntry.file _ _ => []
         | FsEntry.dir yname yents => collectLeaf lname yname yents)
        ++ collectRows lname rest := rfl

lemma collectRows_length (lname : String) :
    ∀ lents : List FsEntry,
      (collectRows lname lents).length = (lents.map specRowCount).sum := by
  intro lents
  induction lents with
  | nil => rfl
  | cons ye rest ih =>
    rw [collectRows_cons]
    cases ye with
    | file n d => simpa [specRowCount] using ih
    | dir yname yents =>
      simp [specRowCount, collectLeaf_length, ih]

lemma collectTiles_cons (le : FsEntry) (rest : List FsEntry) :
    collectTiles (le :: rest)
      = (match le with
         | FsEntry.file _ _ => []
         | FsEntry.dir lname lents =>
           if isNumericName lname then collectRows lname lents else [])
        ++ collectTiles rest := rfl

lemma specTileCount_cons (e : FsEntry) (rest : List FsEntry) :
    specTileCount (e :: rest)
      = (match e with
         | FsEntry.file _ _ => 0
         | FsEntry.dir lname lents =>
           if isNumericName lname then (lents.map specRowCount).sum else 0)
        + specTileCount rest := by
  simp [specTileCount]

lemma collectTiles_length :
    ∀ root : List FsEntry, (collectTiles root).length = specTileCount root := by
  intro root
  induction root with
  | nil => rfl
  | cons le rest ih =>
    rw [collectTiles_cons, specTileCount_cons]
    cases le with
    | file n d => simpa using ih
    | dir lname lents =>
      cases hn : isNumericName lname
      · simpa [hn] using ih
      · simp [hn, collectRows_length, ih]

lemma specTileCount_append_file (root : List FsEntry) (bname : String) (data : List Nat) :
    specTileCount (root ++ [FsEntry.file bname data]) = specTileCount root := by
  unfold specTileCount
  rw [List.map_append, List.sum_append]
  simp

lemma specTileCount_filter (bname : String) (hb : isNumericName bname = false) :
    ∀ root : List FsEntry,
      specTileCount (root.filter fun e => !(entryName e == bname)) = specTileCount root := by
  intro root
  induction root with
  | nil => rfl
  | cons e rest ih =>
    cases hq : (!(entryName e == bname))
    · have hbe : entryName e = bname := by
        cases hx : (entryName e == bname)
        · rw [hx] at hq; simp at hq
        · exact eq_of_beq hx
      have hdrop : (e :: rest).filter (fun e => !(entryName e == bname))
          = rest.filter (fun e => !(entryName e == bname)) := by
        simp [List.filter_cons, hq]
      have hge : specTileCount (e :: rest) = specTileCount rest := by
        cases e with
        | file n d => simp [specTileCount_cons]
        | dir n es =>
          have hn : n = bname := hbe
          subst hn
          simp [specTileCount_cons, hb]
      rw [hdrop, ih, hge]
    · have hkeep : (e :: rest).filter (fun e => !(entryName e == bname))
          = e :: rest.filter (fun e => !(entryName e == bname)) := by
        simp [List.filter_cons, hq]
      rw [hkeep, specTileCount_cons, specTileCount_cons, ih]

lemma mem_collectLeaf (lname yname : String) (yents : List FsEntry) (p : List String)
    (hp : p ∈ collectLeaf lname yname yents) :
    ∃ f, p = [lname, yname, f] ∧ extOk f = true := by
  unfold collectLeaf at hp
  simp only [List.mem_flatMap] at hp
  obtain ⟨te, hte, hp⟩ := hp
  cases te with
  | dir n es => simp at hp
  | file fname d =>
    dsimp only at hp
    cases hx : extOk fname
    · rw [hx] at hp; simp at hp
    · rw [hx] at hp
      simp at hp
      exact ⟨fname, hp, hx⟩

lemma mem_collectRows (lname : String) (lents : List FsEntry) (p : List String)
    (hp : p ∈ collectRows lname lents) :
    ∃ r f, p = [lname, r, f] ∧ extOk f = true := by
  unfold collectRows at hp
  simp only [List.mem_flatMap] at hp
  obtain ⟨ye, hye, hp⟩ := hp
  cases ye with
  | file n d => simp at hp
  | dir yname yents =>
    obtain ⟨f, hpe, hf⟩ := mem_collectLeaf lname yname yents p hp
    exact ⟨yname, f, hpe, hf⟩

/-- C4 (amended): during discovery the purely-numeric-name filter is applied
at the level layer ONLY (a non-numeric level directory contributes nothing,
and skipping is not an error); at the row layer every directory is descended
into regardless of its name; only regular files whose lowercased extension
is .png, .jpg or .jpeg are collected at the leaf layer; and each qualifying
tile file yields exactly one entry, so the entry count of a successful merge
equals the count of qualifying files. -/
theorem discovery_filter_amended :
    (∀ (root : List FsEntry) (p : List String), p ∈ collectTiles root →
      ∃ l r f, p = [l, r, f] ∧ isNumericName l = true ∧ extOk f = true) ∧
    (∀ (n : String) (es rest : List FsEntry), isNumericName n = false →
      collectTiles (FsEntry.dir n es :: rest) = collectTiles rest) ∧
    (∀ (w : MergeWorld) (bname : String) (keep : Bool) (tiles : List TileInfo)
      (blob : List Nat) (rootF : List FsEntry), isNumericName bname = false →
      merge_tiles_to_binary w bname keep = Except.ok (tiles, blob, rootF) →
      tiles.length = specTileCount w.root) := by
  refine ⟨?_, ?_, ?_⟩
  · intro root p hp
    unfold collectTiles at hp
    simp only [List.mem_flatMap] at hp
    obtain ⟨le, hle, hp⟩ := hp
    cases le with
    | file n d => simp at hp
    | dir lname lents =>
      dsimp only at hp
      cases hnum : isNumericName lname
      · rw [hnum] at hp; simp at hp
      · rw [hnum] at hp
        simp at hp
        obtain ⟨r, f, hpe, hf⟩ := mem_collectRows lname lents p hp
        exact ⟨lname, r, f, hpe, hnum, hf⟩
  · intro n es rest hn
    rw [collectTiles_cons]
    simp [hn]
  · intro w bname keep tiles blob rootF hb hok
    obtain ⟨htiles, _, _⟩ := merge_ok_parts w bname keep tiles blob rootF hok
    rw [htiles, packCore_eq]
    dsimp only
    rw [packList_length]
    unfold sortPaths
    rw [List.length_insertionSort]
    rw [collectTiles_length]
    unfold setFile
    rw [specTileCount_append_file]
    exact specTileCount_filter bname hb w.root

/-- Merge world over the C4 tree for the witness. -/
def c4w : MergeWorld := ⟨fun d => d, fun _ => some [], c4root, true⟩

/-- Witness for discovery_filter_amended: the single qualifying file
0/abc/1.png yields exactly one entry. -/
theorem discovery_filter_amended_witness :
    ([⟨"0_abc_1", "tiles_000.binz", 0, 0⟩] : List TileInfo).length = specTileCount c4w.root :=
  discovery_filter_amended.2.2 c4w ("tiles_000.binz") true
    [⟨"0_abc_1", "tiles_000.binz", 0, 0⟩] []
    [.dir ("0") [.dir ("abc") [.file ("1.png") []]], .file ("tiles_000.binz") []]
    (by decide) rfl

/-- A tile tree whose code-produced order differs from full-path-string
order: the row directory name 2.x contains a dot, which sorts before the
path separator in the flat string but after the shorter component 2 in the
component-wise order used by std::filesystem::path. -/
def c5root : List FsEntry :=
  [.dir ("1") [.dir ("2") [.file ("3.png") []], .dir ("2.x") [.file ("4.png") []]]]

/-- C5 counterexample: the code sorts fs::path values component-wise, not by
full path string.  On c5root the code's sorted order puts 1/2/3.png before
1/2.x/4.png, yet the full path string of 1/2.x/4.png is lexicographically
smaller, so the produced order is not sorted by full path string. -/
theorem sort_not_full_path_string_counterexample :
    sortPaths (collectTiles c5root) = [["1", "2", "3.png"], ["1", "2.x", "4.png"]] ∧
    strLt (joinPath ["1", "2.x", "4.png"]) (joinPath ["1", "2", "3.png"]) = true :=
  ⟨rfl, rfl⟩

/-- C5 (amended): re-running the packer on trees that discover the same set
of tile paths (the same tile tree under any directory-iteration order)
produces identical entry sequences and byte-identical blobs: the order is
made deterministic by sorting the discovered paths in fs::path component-wise
lexicographic order (not full-path-string order), and compression is a
deterministic function of the tile bytes. -/
theorem merge_deterministic (compress : List Nat → List Nat)
    (readFile : List String → Option (List Nat)) (t1 t2 : List FsEntry)
    (bname : String) (keep : Bool)
    (hperm : (collectTiles (setFile t1 bname [])).Perm
      (collectTiles (setFile t2 bname []))) :
    ∀ (tiles1 tiles2 : List TileInfo) (blob1 blob2 : List Nat) (r1 r2 : List FsEntry),
      merge_tiles_to_binary ⟨compress, readFile, t1, true⟩ bname keep
        = Except.ok (tiles1, blob1, r1) →
      merge_tiles_to_binary ⟨compress, readFile, t2, true⟩ bname keep
        = Except.ok (tiles2, blob2, r2) →
      tiles1 = tiles2 ∧ blob1 = blob2 := by
  have hsort : sortPaths (collectTiles (setFile t1 bname []))
      = sortPaths (collectTiles (setFile t2 bname [])) := sortPaths_eq_of_perm _ _ hperm
  have hpc : packCore ⟨compress, readFile, t1, true⟩ bname
      = packCore ⟨compress, readFile, t2, true⟩ bname := by
    unfold packCore
    dsimp only
    rw [hsort]
    rfl
  intro tiles1 tiles2 blob1 blob2 r1 r2 h1 h2
  obtain ⟨ht1, hb1, _⟩ := merge_ok_parts _ _ _ _ _ _ h1
  obtain ⟨ht2, hb2, _⟩ := merge_ok_parts _ _ _ _ _ _ h2
  rw [ht1, ht2, hb1, hb2, hpc]
  exact ⟨rfl, rfl⟩

/-- Two listings of the same tile tree, shuffled at the top level and inside
a row directory. -/
def c5t1 : List FsEntry :=
  [.dir ("1") [.dir ("0") [.file ("0.png") [], .file ("1.png") []]],
   .dir ("0") [.dir ("0") [.file ("0.png") []]]]

def c5t2 : List FsEntry :=
  [.dir ("0") [.dir ("0") [.file ("0.png") []]],
   .dir ("1") [.dir ("0") [.file ("1.png") [], .file ("0.png") []]]]

/-- Witness for merge_deterministic: both shuffled listings pack to the same
entries and blob. -/
theorem merge_deterministic_witness :
    ([⟨"0_0_0", "tiles_000.binz", 0, 1⟩, ⟨"1_0_0", "tiles_000.binz", 1, 1⟩,
      ⟨"1_0_1", "tiles_000.binz", 2, 1⟩] : List TileInfo)
      = [⟨"0_0_0", "tiles_000.binz", 0, 1⟩, ⟨"1_0_0", "tiles_000.binz", 1, 1⟩,
         ⟨"1_0_1", "tiles_000.binz", 2, 1⟩] ∧
    ([1, 1, 1] : List Nat) = [1, 1, 1] :=
  merge_deterministic (fun d => d ++ [1]) (fun _ => some []) c5t1 c5t2
    ("tiles_000.binz") false (by decide)
    [⟨"0_0_0", "tiles_000.binz", 0, 1⟩, ⟨"1_0_0", "tiles_000.binz", 1, 1⟩,
     ⟨"1_0_1", "tiles_000.binz", 2, 1⟩]
    [⟨"0_0_0", "tiles_000.binz", 0, 1⟩, ⟨"1_0_0", "tiles_000.binz", 1, 1⟩,
     ⟨"1_0_1", "tiles_000.binz", 2, 1⟩]
    [1, 1, 1] [1, 1, 1]
    [.file ("tiles_000.binz") [1, 1, 1]] [.file ("tiles_000.binz") [1, 1, 1]]
    (by rfl) (by rfl)

lemma sched_fut_bound (cap : Nat) (jobs : List Nat) :
    ∀ s, SchedReach cap ⟨jobs, []⟩ s → s.fut.length ≤ cap := by
  intro s hr
  induction hr with
  | refl => simp
  | step s2 t hr2 hs ih =>
    cases hs with
    | submit j p fut h =>
      dsimp only at ih ⊢
      simp only [List.length_append, List.length_cons, List.length_nil]
      omega
    | finish p pre j post =>
      dsimp only at ih ⊢
      simp only [List.length_append, List.length_cons] at ih ⊢
      omega
    | reap p j rest =>
      dsimp only at ih ⊢
      simp only [List.length_cons] at ih
      omega

/-- C7: for every job list and every maxConcurrency at least 1, in every
state the submission loop of main can reach, the number of in-flight jobs
never exceeds the cap; once the futures vector is at the cap no submission
step is possible (admission is blocked), and the only step that frees a slot
requires the front in-flight job to have completed. -/
theorem scheduler_concurrency_bound (cap : Nat) (jobs : List Nat) (s : SchedState)
    (hcap : 1 ≤ cap) (hreach : SchedReach cap ⟨jobs, []⟩ s) :
    inflight s ≤ cap ∧
    (cap ≤ s.fut.length → ∀ t, SchedStep cap s t → t.pending = s.pending) ∧
    (∀ t, SchedStep cap s t → t.fut.length < s.fut.length →
      ∃ j rest, s.fut = (j, true) :: rest) := by
  refine ⟨?_, ?_, ?_⟩
  · have hb := sched_fut_bound cap jobs s hreach
    unfold inflight
    calc (s.fut.filter fun x => !x.2).length
        ≤ s.fut.length := List.length_filter_le _ _
      _ ≤ cap := hb
  · intro hlen t hstep
    cases hstep with
    | submit j p fut h =>
      dsimp only at hlen
      exact absurd h (by omega)
    | finish p pre j post => rfl
    | reap p j rest => rfl
  · intro t hstep hdec
    cases hstep with
    | submit j p fut h =>
      exact absurd hdec (by simp)
    | finish p pre j post =>
      exact absurd hdec (by simp)
    | reap p j rest => exact ⟨j, rest, rfl⟩

/-- Witness for scheduler_concurrency_bound: after submitting the first of
two jobs with cap 1, the reached state has at most 1 job in flight. -/
theorem scheduler_concurrency_bound_witness :
    inflight ⟨[2], [(1, false)]⟩ ≤ 1 :=
  (scheduler_concurrency_bound 1 [1, 2] ⟨[2], [(1, false)]⟩ (by decide)
    (SchedReach.step _ _ SchedReach.refl (SchedStep.submit 1 [2] [] (by decide)))).1

lemma merge_ok_rootF (w : MergeWorld) (bname : String) (keep : Bool)
    (tiles : List TileInfo) (blob : List Nat) (rootF : List FsEntry)
    (hok : merge_tiles_to_binary w bname keep = Except.ok (tiles, blob, rootF)) :
    rootF = (if keep
      then setFile (setFile w.root bname []) bname (packCore w bname).blob
      else cleanupRoot (setFile (setFile w.root bname []) bname (packCore w bname).blob)) := by
  unfold merge_tiles_to_binary at hok
  cases hc : w.canCreateBlob
  · rw [hc] at hok; simp at hok
  · rw [hc] at hok
    simp at hok
    exact hok.2.2.symm

lemma write_metadata_ok_root (root : List FsEntry) (wd ht ts : Int)
    (tiles : List TileInfo) (rootF : List FsEntry) (doc : MetaDoc)
    (h : write_metadata true root wd ht ts tiles = Except.ok (rootF, doc)) :
    rootF = setFile root ("metadata.json") [] := by
  unfold write_metadata at h
  simp at h
  exact h.1.symm

lemma mem_setFile (root : List FsEntry) (name : String) (data : List Nat) :
    FsEntry.file name data ∈ setFile root name data := by
  unfold setFile
  simp

lemma mem_setFile_of_mem (root : List FsEntry) (name : String) (data : List Nat)
    (e : FsEntry) (he : e ∈ root) (hne : entryName e ≠ name) :
    e ∈ setFile root name data := by
  unfold setFile
  rw [List.mem_append]
  left
  rw [List.mem_filter]
  refine ⟨he, ?_⟩
  cases hx : (entryName e == name)
  · rfl
  · exact absurd (eq_of_beq hx) hne

lemma mem_setFile_elim (root : List FsEntry) (name : String) (data : List Nat)
    (e : FsEntry) (he : e ∈ setFile root name data) :
    e = FsEntry.file name data ∨ e ∈ root := by
  unfold setFile at he
  rw [List.mem_append] at he
  rcases he with he | he
  · right
    exact (List.mem_filter.mp he).1
  · left
    simpa using he

lemma cleanupRoot_no_numeric_dir (root : List FsEntry) (e : FsEntry)
    (he : e ∈ cleanupRoot root) (hd : isDirE e = true) :
    isNumericName (entryName e) = false := by
  unfold cleanupRoot at he
  rw [List.mem_filter] at he
  have h1 := (List.mem_filter.mp he.1).2
  cases hn : isNumericName (entryName e)
  · rfl
  · rw [hd, hn] at h1
    simp at h1

lemma cleanupRoot_no_blank (root : List FsEntry) (e : FsEntry)
    (he : e ∈ cleanupRoot root) : entryName e ≠ "blank.png" := by
  unfold cleanupRoot at he
  rw [List.mem_filter] at he
  intro hc
  have h2 := he.2
  rw [hc] at h2
  simp at h2

lemma mem_cleanupRoot_of (root : List FsEntry) (e : FsEntry) (he : e ∈ root)
    (h1 : isDirE e = false) (h2 : entryName e ≠ "blank.png") :
    e ∈ cleanupRoot root := by
  unfold cleanupRoot
  rw [List.mem_filter, List.mem_filter]
  refine ⟨⟨he, by rw [h1]; rfl⟩, ?_⟩
  cases hx : (entryName e == "blank.png")
  · rfl
  · exact absurd (eq_of_beq hx) h2

/-- C6: after a successful pack with keepSourceTiles = false followed by
metadata writing, the output folder holds no purely-numeric-named directory
and no blank.png, while the written blob file (with exactly the packed
bytes) and the metadata descriptor are present; with keepSourceTiles = true
every numeric-named tile directory of the original tree is still present
alongside the new blob. -/
theorem cleanup_after_pack (w : MergeWorld)
    (tiles : List TileInfo) (blob : List Nat) (root3 : List FsEntry)
    (tiles2 : List TileInfo) (blob2 : List Nat) (root3k : List FsEntry)
    (rootF : List FsEntry) (doc : MetaDoc) (tgt ts : Int)
    (hok : merge_tiles_to_binary w ("tiles_000.binz") false = Except.ok (tiles, blob, root3))
    (hmeta : write_metadata true root3 tgt tgt ts tiles = Except.ok (rootF, doc))
    (hok2 : merge_tiles_to_binary w ("tiles_000.binz") true
      = Except.ok (tiles2, blob2, root3k)) :
    (∀ e ∈ rootF, isDirE e = true → isNumericName (entryName e) = false) ∧
    (∀ e ∈ rootF, entryName e ≠ "blank.png") ∧
    FsEntry.file ("tiles_000.binz") blob ∈ rootF ∧
    FsEntry.file ("metadata.json") [] ∈ rootF ∧
    (∀ e ∈ w.root, isDirE e = true → isNumericName (entryName e) = true → e ∈ root3k) ∧
    FsEntry.file ("tiles_000.binz") blob2 ∈ root3k := by
  have hblob : blob = (packCore w ("tiles_000.binz")).blob :=
    (merge_ok_parts _ _ _ _ _ _ hok).2.1
  have hr3 := merge_ok_rootF _ _ _ _ _ _ hok
  rw [if_neg (by simp)] at hr3
  have hrF := write_metadata_ok_root _ _ _ _ _ _ _ hmeta
  have hblob2 : blob2 = (packCore w ("tiles_000.binz")).blob :=
    (merge_ok_parts _ _ _ _ _ _ hok2).2.1
  have hr3k := merge_ok_rootF _ _ _ _ _ _ hok2
  rw [if_pos rfl] at hr3k
  refine ⟨?_, ?_, ?_, ?_, ?_, ?_⟩
  · intro e he hd
    rw [hrF] at he
    rcases mem_setFile_elim _ _ _ _ he with he2 | he2
    · rw [he2] at hd
      simp [isDirE] at hd
    · rw [hr3] at he2
      exact cleanupRoot_no_numeric_dir _ _ he2 hd
  · intro e he
    rw [hrF] at he
    rcases mem_setFile_elim _ _ _ _ he with he2 | he2
    · rw [he2]
      decide
    · rw [hr3] at he2
      exact cleanupRoot_no_blank _ _ he2
  · rw [hrF]
    refine mem_setFile_of_mem _ ("metadata.json") [] _ ?_ (by dsimp only [entryName]; decide)
    rw [hr3, hblob]
    refine mem_cleanupRoot_of _ _ ?_ rfl (by dsimp only [entryName]; decide)
    exact mem_setFile _ _ _
  · rw [hrF]
    exact mem_setFile _ _ _
  · intro e he hd hn
    have hne : entryName e ≠ "tiles_000.binz" := by
      intro hc
      rw [hc] at hn
      exact absurd hn (by decide)
    rw [hr3k]
    apply mem_setFile_of_mem _ _ _ _ _ hne
    exact mem_setFile_of_mem _ _ _ _ he hne
  · rw [hr3k, hblob2]
    exact mem_setFile _ _ _

/-- Concrete world for the cleanup_after_pack witness: one numeric level
directory, a blank.png and an unrelated file at the root. -/
def w6 : MergeWorld :=
  ⟨fun d => d ++ [5], fun _ => some [2],
   [.dir ("2") [.dir ("0") [.file ("1.png") []]], .file ("blank.png") [],
    .file ("keep.txt") [9]], true⟩

def c6rootF : List FsEntry :=
  [.file ("keep.txt") [9], .file ("tiles_000.binz") [2, 5], .file ("metadata.json") []]

def c6root3k : List FsEntry :=
  [.dir ("2") [.dir ("0") [.file ("1.png") []]], .file ("blank.png") [],
   .file ("keep.txt") [9], .file ("tiles_000.binz") [2, 5]]

/-- Witness for cleanup_after_pack at the concrete world w6. -/
theorem cleanup_after_pack_witness :
    (∀ e ∈ c6rootF, isDirE e = true → isNumericName (entryName e) = false) ∧
    (∀ e ∈ c6rootF, entryName e ≠ "blank.png") ∧
    FsEntry.file ("tiles_000.binz") [2, 5] ∈ c6rootF ∧
    FsEntry.file ("metadata.json") [] ∈ c6rootF ∧
    (∀ e ∈ w6.root, isDirE e = true → isNumericName (entryName e) = true → e ∈ c6root3k) ∧
    FsEntry.file ("tiles_000.binz") [2, 5] ∈ c6root3k :=
  cleanup_after_pack w6 [⟨"2_0_1", "tiles_000.binz", 0, 2⟩] [2, 5]
    [.file ("keep.txt") [9], .file ("tiles_000.binz") [2, 5]]
    [⟨"2_0_1", "tiles_000.binz", 0, 2⟩] [2, 5] c6root3k c6rootF
    ⟨4, 4, 512, [("2_0_1", ⟨"tiles_000.binz", 0, 2⟩)]⟩ 4 512
    (by rfl) (by rfl) (by rfl)

/-- A tile tree with two qualifying files 2.png and 2.jpg in the same row
directory: both have stem 2 and thus the same coordinate key. -/
def w10 : MergeWorld :=
  ⟨fun d => d, fun _ => some [3],
   [.dir ("0") [.dir ("1") [.file ("2.png") [], .file ("2.jpg") []]]], true⟩

/-- C10: the coordinateKey is not unique: with 2.png and 2.jpg in the same
row directory the packer produces two entries with key 0_1_2, write_metadata
emits both, and the resulting tiles mapping contains a duplicate key. -/
theorem duplicate_coordinate_keys :
    (packCore w10 ("tiles_000.binz")).tiles.map TileInfo.key = ["0_1_2", "0_1_2"] ∧
    ((write_metadata true [] 4 4 512 (packCore w10 ("tiles_000.binz")).tiles).toOption.map
        fun x => x.2.tiles.map Prod.fst) = some ["0_1_2", "0_1_2"] ∧
    ¬ ((packCore w10 ("tiles_000.binz")).tiles.map TileInfo.key).Nodup := by
  refine ⟨by rfl, by rfl, by decide⟩
